import Mathlib

/-!
# Toggle set of capacity four (`azatik.cpp`)

A shallow embedding of `src/code/azatik.cpp`: the four-element buffer `int arr[4]`
with the value `-1` marking a free slot, the three linear scans `contains`,
`put_on_free_place` and `delete_elem`, the toggle loop of `main`, and the
hand-unrolled three-element sort that precedes the output.

The program only compares and copies `int` values (no arithmetic), so the slots
are modelled as `Int`.
-/

namespace Azatik

/-! ## Data model -/

/-- The buffer `int arr[4]`: four integer slots. -/
structure Arr where
  a0 : Int
  a1 : Int
  a2 : Int
  a3 : Int
deriving DecidableEq, Repr

/-- The read `arr[i]`. The loops of the program only use `i < 4`; an index outside
the buffer is never read by them (the value `0` given here is never used). -/
def Arr.get (arr : Arr) : Nat → Int
  | 0 => arr.a0
  | 1 => arr.a1
  | 2 => arr.a2
  | 3 => arr.a3
  | _ => 0

/-- The write `arr[i] = x`. An index outside the buffer is never written by the
loops of the program (the buffer is returned as it is there). -/
def Arr.set (arr : Arr) (i : Nat) (x : Int) : Arr :=
  match i with
  | 0 => { arr with a0 := x }
  | 1 => { arr with a1 := x }
  | 2 => { arr with a2 := x }
  | 3 => { arr with a3 := x }
  | _ => arr

/-- The initial buffer of `main`: `int arr[4] = {-1, -1, -1, -1}`. -/
def empty : Arr := ⟨-1, -1, -1, -1⟩

/-! ## The three scans -/

/-- The loop of `contains`, from index `i` with `k` iterations left:
`if (arr[i] == elem) return i;`, and `return -1` after the loop. -/
def containsFrom (arr : Arr) (elem : Int) : Nat → Nat → Int
  | 0, _ => -1
  | k + 1, i => if arr.get i = elem then (i : Int) else containsFrom arr elem k (i + 1)

/-- The function `int contains(int* arr, int elem)`: `for (int i = 0; i < 4; i++)`. -/
def contains (arr : Arr) (elem : Int) : Int :=
  containsFrom arr elem 4 0

/-- The loop of `put_on_free_place`, from index `i` with `k` iterations left:
`if (arr[i] == -1) { arr[i] = elem; return; }`. -/
def putFrom (arr : Arr) (elem : Int) : Nat → Nat → Arr
  | 0, _ => arr
  | k + 1, i => if arr.get i = -1 then arr.set i elem else putFrom arr elem k (i + 1)

/-- The function `void put_on_free_place(int* arr, int elem)`; the result is the
buffer after the call. -/
def put_on_free_place (arr : Arr) (elem : Int) : Arr :=
  putFrom arr elem 4 0

/-- The loop of `delete_elem`, from index `i` with `k` iterations left:
`if (arr[i] == elem) { arr[i] = -1; return; }`. -/
def deleteFrom (arr : Arr) (elem : Int) : Nat → Nat → Arr
  | 0, _ => arr
  | k + 1, i => if arr.get i = elem then arr.set i (-1) else deleteFrom arr elem k (i + 1)

/-- The function `void delete_elem(int* arr, int elem)`; the result is the buffer
after the call. -/
def delete_elem (arr : Arr) (elem : Int) : Arr :=
  deleteFrom arr elem 4 0

/-! ## The driver -/

/-- The body of the input loop of `main` for one value read into `new_elem`. -/
def toggle (arr : Arr) (new_elem : Int) : Arr :=
  if contains arr new_elem = -1 then put_on_free_place arr new_elem
  else delete_elem arr new_elem

/-- The input loop of `main` run on the values read, in order, from a given buffer. -/
def toggleFrom (arr : Arr) (xs : List Int) : Arr :=
  xs.foldl toggle arr

/-- The input loop of `main` run from the initial buffer. -/
def toggleAll (xs : List Int) : Arr :=
  toggleFrom empty xs

/-- The statement `if (arr[i] > arr[j]) std::swap(arr[i], arr[j]);`. -/
def condSwap (arr : Arr) (i j : Nat) : Arr :=
  if arr.get i > arr.get j then (arr.set i (arr.get j)).set j (arr.get i) else arr

/-- The three conditional swaps of `main`, on `(0,1)`, `(1,2)`, `(0,1)`. -/
def sort3 (arr : Arr) : Arr :=
  condSwap (condSwap (condSwap arr 0 1) 1 2) 0 1

/-- The three numbers written by `std::cout << arr[0] << " " << arr[1] << " " << arr[2]`
for a buffer as it stands after the input loop. -/
def printed (arr : Arr) : Int × Int × Int :=
  ((sort3 arr).a0, (sort3 arr).a1, (sort3 arr).a2)

/-- The text written to standard output for a buffer as it stands after the loop. -/
def render (arr : Arr) : String :=
  toString (sort3 arr).a0 ++ " " ++ toString (sort3 arr).a1 ++ " " ++ toString (sort3 arr).a2

/-- The program on the `N` values read after the count: the three printed numbers. -/
def mainOutput (xs : List Int) : Int × Int × Int :=
  printed (toggleAll xs)

/-- The program on its whole standard input, the count `N` first: the input loop
runs `N` times (not at all for `N ≤ 0`); an input with fewer than `N` values after
the count has no defined result. -/
def mainProgram : List Int → Option String
  | [] => none
  | n :: rest =>
    if n.toNat ≤ rest.length then some (render (toggleAll (rest.take n.toNat))) else none

/-! ## Vocabulary of the properties -/

/-- Slot `i` is the lowest-indexed slot of `arr` that holds `x`. -/
def IsFirst (arr : Arr) (x : Int) (i : Nat) : Prop :=
  i < 4 ∧ arr.get i = x ∧ ∀ j, j < i → arr.get j ≠ x

instance (arr : Arr) (x : Int) (i : Nat) : Decidable (IsFirst arr x i) := by
  unfold IsFirst
  infer_instance

/-- Some slot of `arr` holds `x`. -/
def Holds (arr : Arr) (x : Int) : Prop :=
  ∃ i, i < 4 ∧ arr.get i = x

/-- No two occupied slots hold the same value. -/
def Unique (arr : Arr) : Prop :=
  ∀ i j, i < 4 → j < 4 → i ≠ j → arr.get i ≠ -1 → arr.get i ≠ arr.get j

/-- The buffer can be produced by the input loop from the initial buffer. -/
def Reachable (arr : Arr) : Prop :=
  ∃ xs : List Int, toggleAll xs = arr

/-- The values toggled an odd number of times in `xs`: the values that are "on". -/
def onValues (xs : List Int) : Finset Int :=
  xs.toFinset.filter (fun v => xs.count v % 2 = 1)

/-- Every stored value other than `-1` is a value toggled an odd number of times in
`xs`, and conversely. -/
def Tracks (xs : List Int) (arr : Arr) : Prop :=
  ∀ v, v ≠ -1 → (Holds arr v ↔ xs.count v % 2 = 1)

/-- The values of the occupied slots (those not holding `-1`), by increasing index. -/
def occupied (arr : Arr) : List Int :=
  [arr.get 0, arr.get 1, arr.get 2, arr.get 3].filter (fun x => x ≠ -1)

/-- The set of values stored in the buffer. -/
def storedValues (arr : Arr) : Finset Int :=
  (occupied arr).toFinset

/-! ## Unfolding the scans -/

theorem contains_eq (arr : Arr) (e : Int) :
    contains arr e =
      if arr.a0 = e then 0 else if arr.a1 = e then 1 else if arr.a2 = e then 2
      else if arr.a3 = e then 3 else -1 := rfl

theorem put_eq (arr : Arr) (e : Int) :
    put_on_free_place arr e =
      if arr.a0 = -1 then { arr with a0 := e } else if arr.a1 = -1 then { arr with a1 := e }
      else if arr.a2 = -1 then { arr with a2 := e } else if arr.a3 = -1 then { arr with a3 := e }
      else arr := rfl

theorem delete_eq (arr : Arr) (e : Int) :
    delete_elem arr e =
      if arr.a0 = e then { arr with a0 := -1 } else if arr.a1 = e then { arr with a1 := -1 }
      else if arr.a2 = e then { arr with a2 := -1 } else if arr.a3 = e then { arr with a3 := -1 }
      else arr := rfl

theorem exists_lt_four (P : Nat → Prop) :
    (∃ i, i < 4 ∧ P i) ↔ P 0 ∨ P 1 ∨ P 2 ∨ P 3 := by
  constructor
  · rintro ⟨i, hi, h⟩
    interval_cases i <;> simp [h]
  · rintro (h | h | h | h)
    exacts [⟨0, by omega, h⟩, ⟨1, by omega, h⟩, ⟨2, by omega, h⟩, ⟨3, by omega, h⟩]

theorem holds_iff (arr : Arr) (x : Int) :
    Holds arr x ↔ arr.a0 = x ∨ arr.a1 = x ∨ arr.a2 = x ∨ arr.a3 = x := by
  unfold Holds
  rw [exists_lt_four]
  rfl

theorem contains_eq_neg_one_iff (arr : Arr) (e : Int) :
    contains arr e = -1 ↔ ¬ Holds arr e := by
  rw [holds_iff, contains_eq]
  split_ifs <;> simp_all

theorem contains_isFirst (arr : Arr) (e : Int) (i : Nat) (h : IsFirst arr e i) :
    contains arr e = (i : Int) := by
  obtain ⟨hi, he, hlt⟩ := h
  rw [contains_eq]
  interval_cases i
  · have : arr.a0 = e := he
    simp [this]
  · have h0 : arr.a0 ≠ e := hlt 0 (by omega)
    have : arr.a1 = e := he
    simp [this, h0]
  · have h0 : arr.a0 ≠ e := hlt 0 (by omega)
    have h1 : arr.a1 ≠ e := hlt 1 (by omega)
    have : arr.a2 = e := he
    simp [this, h0, h1]
  · have h0 : arr.a0 ≠ e := hlt 0 (by omega)
    have h1 : arr.a1 ≠ e := hlt 1 (by omega)
    have h2 : arr.a2 ≠ e := hlt 2 (by omega)
    have : arr.a3 = e := he
    simp [this, h0, h1, h2]

theorem exists_isFirst (arr : Arr) (x : Int) (h : Holds arr x) : ∃ i, IsFirst arr x i := by
  rw [holds_iff] at h
  by_cases h0 : arr.a0 = x
  · exact ⟨0, by omega, h0, fun j hj => by omega⟩
  by_cases h1 : arr.a1 = x
  · refine ⟨1, by omega, h1, fun j hj => ?_⟩
    interval_cases j
    exact h0
  by_cases h2 : arr.a2 = x
  · refine ⟨2, by omega, h2, fun j hj => ?_⟩
    interval_cases j
    exacts [h0, h1]
  have h3 : arr.a3 = x := by tauto
  refine ⟨3, by omega, h3, fun j hj => ?_⟩
  interval_cases j
  exacts [h0, h1, h2]

theorem get_set (arr : Arr) (i j : Nat) (x : Int) (hi : i < 4) :
    (arr.set i x).get j = if j = i then x else arr.get j := by
  interval_cases i <;> rcases j with _ | _ | _ | _ | _ | j <;> simp [Arr.set, Arr.get]

theorem put_of_isFirst (arr : Arr) (e : Int) (i : Nat) (h : IsFirst arr (-1) i) :
    put_on_free_place arr e = arr.set i e := by
  obtain ⟨hi, he, hlt⟩ := h
  rw [put_eq]
  interval_cases i
  · have : arr.a0 = -1 := he
    simp [this, Arr.set]
  · have h0 : arr.a0 ≠ -1 := hlt 0 (by omega)
    have : arr.a1 = -1 := he
    simp [this, h0, Arr.set]
  · have h0 : arr.a0 ≠ -1 := hlt 0 (by omega)
    have h1 : arr.a1 ≠ -1 := hlt 1 (by omega)
    have : arr.a2 = -1 := he
    simp [this, h0, h1, Arr.set]
  · have h0 : arr.a0 ≠ -1 := hlt 0 (by omega)
    have h1 : arr.a1 ≠ -1 := hlt 1 (by omega)
    have h2 : arr.a2 ≠ -1 := hlt 2 (by omega)
    have : arr.a3 = -1 := he
    simp [this, h0, h1, h2, Arr.set]

theorem put_of_full (arr : Arr) (e : Int) (h : ¬ Holds arr (-1)) :
    put_on_free_place arr e = arr := by
  rw [holds_iff] at h
  rw [put_eq]
  split_ifs <;> simp_all

theorem delete_of_isFirst (arr : Arr) (e : Int) (i : Nat) (h : IsFirst arr e i) :
    delete_elem arr e = arr.set i (-1) := by
  obtain ⟨hi, he, hlt⟩ := h
  rw [delete_eq]
  interval_cases i
  · have : arr.a0 = e := he
    simp [this, Arr.set]
  · have h0 : arr.a0 ≠ e := hlt 0 (by omega)
    have : arr.a1 = e := he
    simp [this, h0, Arr.set]
  · have h0 : arr.a0 ≠ e := hlt 0 (by omega)
    have h1 : arr.a1 ≠ e := hlt 1 (by omega)
    have : arr.a2 = e := he
    simp [this, h0, h1, Arr.set]
  · have h0 : arr.a0 ≠ e := hlt 0 (by omega)
    have h1 : arr.a1 ≠ e := hlt 1 (by omega)
    have h2 : arr.a2 ≠ e := hlt 2 (by omega)
    have : arr.a3 = e := he
    simp [this, h0, h1, h2, Arr.set]

theorem delete_of_absent (arr : Arr) (e : Int) (h : ¬ Holds arr e) :
    delete_elem arr e = arr := by
  rw [holds_iff] at h
  rw [delete_eq]
  split_ifs <;> simp_all

theorem contains_set_other (arr : Arr) (i : Nat) (x v : Int) (hi : i < 4)
    (hold : arr.get i ≠ v) (hnew : x ≠ v) : contains (arr.set i x) v = contains arr v := by
  rw [contains_eq, contains_eq]
  interval_cases i <;> simp only [Arr.get] at hold <;> simp [Arr.set, hold, hnew]

/-! ## One step of the input loop -/

theorem toggle_of_absent (arr : Arr) (v : Int) (h : ¬ Holds arr v) :
    toggle arr v = put_on_free_place arr v := by
  unfold toggle
  rw [if_pos ((contains_eq_neg_one_iff arr v).2 h)]

theorem toggle_of_present (arr : Arr) (v : Int) (h : Holds arr v) :
    toggle arr v = delete_elem arr v := by
  unfold toggle
  rw [if_neg (fun hc => (contains_eq_neg_one_iff arr v).1 hc h)]

/-- The three ways one step of the input loop can go: the value is dropped and the
buffer stays, the value is written into the lowest free slot, or the lowest slot
holding the value is freed. -/
theorem toggle_cases (arr : Arr) (v : Int) :
    (¬ Holds arr v ∧ ¬ Holds arr (-1) ∧ toggle arr v = arr) ∨
    (¬ Holds arr v ∧ ∃ i, IsFirst arr (-1) i ∧ toggle arr v = arr.set i v) ∨
    (∃ i, IsFirst arr v i ∧ toggle arr v = arr.set i (-1)) := by
  by_cases hv : Holds arr v
  · obtain ⟨i, hi⟩ := exists_isFirst arr v hv
    exact Or.inr (Or.inr ⟨i, hi, by rw [toggle_of_present arr v hv, delete_of_isFirst arr v i hi]⟩)
  · by_cases hf : Holds arr (-1)
    · obtain ⟨i, hi⟩ := exists_isFirst arr (-1) hf
      exact Or.inr (Or.inl ⟨hv, i, hi,
        by rw [toggle_of_absent arr v hv, put_of_isFirst arr v i hi]⟩)
    · exact Or.inl ⟨hv, hf, by rw [toggle_of_absent arr v hv, put_of_full arr v hf]⟩

theorem unique_set_new (arr : Arr) (i : Nat) (v : Int) (hi : i < 4) (hu : Unique arr)
    (hv : ¬ Holds arr v) : Unique (arr.set i v) := by
  intro p q hp hq hpq hocc
  rw [get_set arr i p v hi] at hocc ⊢
  rw [get_set arr i q v hi]
  by_cases hpi : p = i
  · have hqi : q ≠ i := fun e => hpq (hpi.trans e.symm)
    rw [if_pos hpi, if_neg hqi]
    exact fun e => hv ⟨q, hq, e.symm⟩
  · rw [if_neg hpi] at hocc ⊢
    by_cases hqi : q = i
    · rw [if_pos hqi]
      exact fun e => hv ⟨p, hp, e⟩
    · rw [if_neg hqi]
      exact hu p q hp hq hpq hocc

theorem unique_set_free (arr : Arr) (i : Nat) (hi : i < 4) (hu : Unique arr) :
    Unique (arr.set i (-1)) := by
  intro p q hp hq hpq hocc
  rw [get_set arr i p (-1) hi] at hocc ⊢
  rw [get_set arr i q (-1) hi]
  by_cases hpi : p = i
  · rw [if_pos hpi] at hocc
    exact absurd rfl hocc
  · rw [if_neg hpi] at hocc ⊢
    by_cases hqi : q = i
    · rw [if_pos hqi]
      exact hocc
    · rw [if_neg hqi]
      exact hu p q hp hq hpq hocc

theorem unique_toggle (arr : Arr) (v : Int) (hu : Unique arr) : Unique (toggle arr v) := by
  rcases toggle_cases arr v with ⟨_, _, h⟩ | ⟨hv, i, hi, h⟩ | ⟨i, hi, h⟩
  · rw [h]
    exact hu
  · rw [h]
    exact unique_set_new arr i v hi.1 hu hv
  · rw [h]
    exact unique_set_free arr i hi.1 hu

theorem unique_empty : Unique empty := by
  intro p q hp _ _ hocc
  exfalso
  apply hocc
  interval_cases p <;> rfl

theorem unique_toggleFrom (xs : List Int) (arr : Arr) (hu : Unique arr) :
    Unique (toggleFrom arr xs) := by
  induction xs generalizing arr with
  | nil => exact hu
  | cons x xs ih => exact ih (toggle arr x) (unique_toggle arr x hu)

theorem unique_of_reachable (arr : Arr) (h : Reachable arr) : Unique arr := by
  obtain ⟨xs, rfl⟩ := h
  exact unique_toggleFrom xs empty unique_empty

theorem toggleAll_append_singleton (xs : List Int) (x : Int) :
    toggleAll (xs ++ [x]) = toggle (toggleAll xs) x := by
  simp [toggleAll, toggleFrom, List.foldl_append]

theorem set_set_restore (arr : Arr) (i : Nat) (x : Int) (hi : i < 4) :
    (arr.set i x).set i (arr.get i) = arr := by
  interval_cases i <;> rfl

theorem set_get_self (arr : Arr) (i : Nat) (hi : i < 4) : arr.set i (arr.get i) = arr := by
  interval_cases i <;> rfl

theorem toggle_absent_twice (arr : Arr) (v : Int) (hv : ¬ Holds arr v)
    (hfree : Holds arr (-1)) : toggle (toggle arr v) v = arr := by
  obtain ⟨i, hi⟩ := exists_isFirst arr (-1) hfree
  have h1 : toggle arr v = arr.set i v := by
    rw [toggle_of_absent arr v hv, put_of_isFirst arr v i hi]
  have hfirst : IsFirst (arr.set i v) v i := by
    refine ⟨hi.1, ?_, ?_⟩
    · rw [get_set arr i i v hi.1]
      simp
    · intro j hj hjv
      rw [get_set arr i j v hi.1, if_neg (by omega)] at hjv
      exact hv ⟨j, by have := hi.1; omega, hjv⟩
  rw [h1, toggle_of_present _ v ⟨i, hfirst.1, hfirst.2.1⟩, delete_of_isFirst _ v i hfirst]
  have := set_set_restore arr i v hi.1
  rwa [hi.2.1] at this

theorem toggle_present_twice (arr : Arr) (v : Int) (i : Nat) (hu : Unique arr)
    (hi : IsFirst arr v i) (hlow : ∀ j, j < i → arr.get j ≠ -1) :
    toggle (toggle arr v) v = arr := by
  have h1 : toggle arr v = arr.set i (-1) := by
    rw [toggle_of_present arr v ⟨i, hi.1, hi.2.1⟩, delete_of_isFirst arr v i hi]
  by_cases hv : v = -1
  · have hsame : arr.set i (-1) = arr := by
      have e : arr.get i = -1 := hi.2.1.trans hv
      rw [← e]
      exact set_get_self arr i hi.1
    rw [h1, hsame, h1, hsame]
  · have habs : ¬ Holds (arr.set i (-1)) v := by
      rintro ⟨j, hj, hjv⟩
      rw [get_set arr i j (-1) hi.1] at hjv
      by_cases hji : j = i
      · rw [if_pos hji] at hjv
        exact hv hjv.symm
      · rw [if_neg hji] at hjv
        exact hu i j hi.1 hj (fun e => hji e.symm) (by rw [hi.2.1]; exact hv)
          (hi.2.1.trans hjv.symm)
    have hfirst : IsFirst (arr.set i (-1)) (-1) i := by
      refine ⟨hi.1, ?_, ?_⟩
      · rw [get_set arr i i (-1) hi.1]
        simp
      · intro j hj
        rw [get_set arr i j (-1) hi.1, if_neg (by omega)]
        exact hlow j hj
    rw [h1, toggle_of_absent _ v habs, put_of_isFirst _ v i hfirst]
    have := set_set_restore arr i (-1) hi.1
    rw [hi.2.1] at this
    exact this

/-! ## The buffer against the parity of the input -/

theorem mem_onValues (xs : List Int) (v : Int) : v ∈ onValues xs ↔ xs.count v % 2 = 1 := by
  unfold onValues
  rw [Finset.mem_filter, List.mem_toFinset]
  constructor
  · exact fun h => h.2
  · intro h
    refine ⟨?_, h⟩
    by_contra hn
    rw [List.count_eq_zero_of_not_mem hn] at h
    omega

theorem count_append_singleton (xs : List Int) (x v : Int) :
    (xs ++ [x]).count v = xs.count v + if x = v then 1 else 0 := by
  rw [List.count_append, List.count_singleton]
  by_cases h : x = v
  · simp [h]
  · simp [h]

theorem contains_range (arr : Arr) (e : Int) :
    contains arr e = -1 ∨ (0 ≤ contains arr e ∧ contains arr e ≤ 3) := by
  rw [contains_eq]
  split_ifs <;> simp

theorem holds_set (arr : Arr) (i : Nat) (y v : Int) (hi : i < 4) :
    Holds (arr.set i y) v ↔ y = v ∨ ∃ j, j < 4 ∧ j ≠ i ∧ arr.get j = v := by
  constructor
  · rintro ⟨j, hj, h⟩
    rw [get_set arr i j y hi] at h
    by_cases hji : j = i
    · rw [if_pos hji] at h
      exact Or.inl h
    · rw [if_neg hji] at h
      exact Or.inr ⟨j, hj, hji, h⟩
  · rintro (h | ⟨j, hj, hji, h⟩)
    · exact ⟨i, hi, by rw [get_set arr i i y hi, if_pos rfl]; exact h⟩
    · exact ⟨j, hj, by rw [get_set arr i j y hi, if_neg hji]; exact h⟩

theorem full_not_within_capacity (arr : Arr) (xs : List Int) (x : Int) (hu : Unique arr)
    (ht : Tracks xs arr) (hx : x ≠ -1) (hfull : ¬ Holds arr (-1)) (habs : ¬ Holds arr x) :
    5 ≤ (onValues (xs ++ [x])).card := by
  obtain ⟨a, b, c, d⟩ := arr
  have ha : a ≠ -1 := fun e => hfull ⟨0, by omega, e⟩
  have hb : b ≠ -1 := fun e => hfull ⟨1, by omega, e⟩
  have hc : c ≠ -1 := fun e => hfull ⟨2, by omega, e⟩
  have hd : d ≠ -1 := fun e => hfull ⟨3, by omega, e⟩
  have hab : a ≠ b := hu 0 1 (by omega) (by omega) (by omega) ha
  have hac : a ≠ c := hu 0 2 (by omega) (by omega) (by omega) ha
  have had : a ≠ d := hu 0 3 (by omega) (by omega) (by omega) ha
  have hbc : b ≠ c := hu 1 2 (by omega) (by omega) (by omega) hb
  have hbd : b ≠ d := hu 1 3 (by omega) (by omega) (by omega) hb
  have hcd : c ≠ d := hu 2 3 (by omega) (by omega) (by omega) hc
  have hax : a ≠ x := fun e => habs ⟨0, by omega, e⟩
  have hbx : b ≠ x := fun e => habs ⟨1, by omega, e⟩
  have hcx : c ≠ x := fun e => habs ⟨2, by omega, e⟩
  have hdx : d ≠ x := fun e => habs ⟨3, by omega, e⟩
  have hnd : [a, b, c, d, x].Nodup := by
    simp [hab, hac, had, hbc, hbd, hcd, hax, hbx, hcx, hdx]
  have hstored : ∀ (k : Nat) (y : Int), k < 4 → (Arr.mk a b c d).get k = y → y ≠ -1 → y ≠ x →
      y ∈ onValues (xs ++ [x]) := by
    intro k y hk hy hy1 hyx
    rw [mem_onValues, count_append_singleton, if_neg (fun e => hyx e.symm), Nat.add_zero]
    exact (ht y hy1).1 ⟨k, hk, hy⟩
  have hsub : [a, b, c, d, x].toFinset ⊆ onValues (xs ++ [x]) := by
    intro y hy
    rw [List.mem_toFinset] at hy
    simp only [List.mem_cons, List.mem_singleton, List.not_mem_nil, or_false] at hy
    rcases hy with rfl | rfl | rfl | rfl | rfl
    · exact hstored 0 _ (by omega) rfl ha hax
    · exact hstored 1 _ (by omega) rfl hb hbx
    · exact hstored 2 _ (by omega) rfl hc hcx
    · exact hstored 3 _ (by omega) rfl hd hdx
    · rw [mem_onValues, count_append_singleton, if_pos rfl]
      have hev : ¬ xs.count y % 2 = 1 := fun e => habs ((ht y hx).2 e)
      omega
  have hcard : [a, b, c, d, x].toFinset.card = 5 := by
    rw [List.toFinset_card_of_nodup hnd]
    rfl
  calc 5 = [a, b, c, d, x].toFinset.card := hcard.symm
    _ ≤ (onValues (xs ++ [x])).card := Finset.card_le_card hsub

theorem tracks_toggle (arr : Arr) (xs : List Int) (x : Int) (hu : Unique arr)
    (ht : Tracks xs arr) (hx : x ≠ -1) (hcap : (onValues (xs ++ [x])).card ≤ 4) :
    Tracks (xs ++ [x]) (toggle arr x) := by
  intro v hv
  rw [count_append_singleton]
  rcases toggle_cases arr x with ⟨habs, hfull, _⟩ | ⟨habs, i, hi, h⟩ | ⟨i, hi, h⟩
  · have := full_not_within_capacity arr xs x hu ht hx hfull habs
    omega
  · rw [h, holds_set arr i x v hi.1]
    have hrest : (∃ j, j < 4 ∧ j ≠ i ∧ arr.get j = v) ↔ Holds arr v := by
      constructor
      · rintro ⟨j, hj, _, e⟩
        exact ⟨j, hj, e⟩
      · rintro ⟨j, hj, e⟩
        refine ⟨j, hj, ?_, e⟩
        rintro rfl
        exact hv (e.symm.trans hi.2.1)
    rw [hrest, ht v hv]
    by_cases hxv : x = v
    · have hev : ¬ xs.count v % 2 = 1 := fun e => habs (hxv ▸ (ht v hv).2 e)
      rw [if_pos hxv]
      constructor
      · intro _
        omega
      · exact fun _ => Or.inl hxv
    · rw [if_neg hxv, Nat.add_zero]
      exact ⟨fun h => h.resolve_left hxv, Or.inr⟩
  · rw [h, holds_set arr i (-1) v hi.1]
    by_cases hxv : x = v
    · have hodd : xs.count v % 2 = 1 := (ht v hv).1 ⟨i, hi.1, hi.2.1.trans hxv⟩
      rw [if_pos hxv]
      constructor
      · rintro (e | ⟨j, hj, hji, e⟩)
        · exact absurd e.symm hv
        · exact absurd (hi.2.1.trans (hxv.trans e.symm))
            (hu i j hi.1 hj (fun e => hji e.symm) (by rw [hi.2.1]; exact hx))
      · intro _
        omega
    · rw [if_neg hxv, Nat.add_zero, ← ht v hv]
      constructor
      · rintro (e | ⟨j, hj, _, e⟩)
        · exact absurd e.symm hv
        · exact ⟨j, hj, e⟩
      · rintro ⟨j, hj, e⟩
        refine Or.inr ⟨j, hj, ?_, e⟩
        rintro rfl
        exact hxv (hi.2.1.symm.trans e)

theorem tracks_toggleAll (xs : List Int) (hs : ∀ x ∈ xs, x ≠ -1)
    (hcap : ∀ n, n ≤ xs.length → (onValues (xs.take n)).card ≤ 4) :
    Tracks xs (toggleAll xs) := by
  induction xs using List.reverseRecOn with
  | nil =>
    intro v hv
    constructor
    · rintro ⟨j, hj, e⟩
      exfalso
      apply hv
      rw [← e]
      interval_cases j <;> rfl
    · intro h
      simp at h
  | append_singleton xs x ih =>
    rw [toggleAll_append_singleton]
    have hs1 : ∀ y ∈ xs, y ≠ -1 := fun y hy => hs y (List.mem_append_left _ hy)
    have hcap1 : ∀ n, n ≤ xs.length → (onValues (xs.take n)).card ≤ 4 := by
      intro n hn
      have := hcap n (by rw [List.length_append]; omega)
      rwa [List.take_append_of_le_length hn] at this
    have hlast : (onValues (xs ++ [x])).card ≤ 4 := by
      have := hcap (xs ++ [x]).length le_rfl
      rwa [List.take_length] at this
    exact tracks_toggle (toggleAll xs) xs x (unique_toggleFrom xs empty unique_empty)
      (ih hs1 hcap1) (hs x (by simp)) hlast

/-! ## The sort before the output -/

theorem sort3_fields_sorted (arr : Arr) :
    (sort3 arr).a0 ≤ (sort3 arr).a1 ∧ (sort3 arr).a1 ≤ (sort3 arr).a2 := by
  obtain ⟨a, b, c, d⟩ := arr
  simp only [sort3, condSwap, Arr.get, Arr.set]
  split_ifs <;> dsimp only at * <;> constructor <;> omega

theorem sort3_fields_mem (arr : Arr) (x : Int) :
    (x = (sort3 arr).a0 ∨ x = (sort3 arr).a1 ∨ x = (sort3 arr).a2) ↔
      (x = arr.a0 ∨ x = arr.a1 ∨ x = arr.a2) := by
  obtain ⟨a, b, c, d⟩ := arr
  simp only [sort3, condSwap, Arr.get, Arr.set]
  split_ifs <;> dsimp only at * <;> tauto

theorem sort3_fields_perm (arr : Arr) :
    List.Perm [(sort3 arr).a0, (sort3 arr).a1, (sort3 arr).a2] [arr.a0, arr.a1, arr.a2] := by
  obtain ⟨a, b, c, d⟩ := arr
  simp only [sort3, condSwap, Arr.get, Arr.set]
  split_ifs <;> dsimp only at *
  all_goals first
    | exact List.Perm.refl _
    | exact List.Perm.swap _ _ _
    | exact List.Perm.cons _ (List.Perm.swap _ _ _)
    | exact (List.Perm.swap _ _ _).trans (List.Perm.cons _ (List.Perm.swap _ _ _))
    | exact (List.Perm.cons _ (List.Perm.swap _ _ _)).trans (List.Perm.swap _ _ _)
    | exact ((List.Perm.swap _ _ _).trans (List.Perm.cons _ (List.Perm.swap _ _ _))).trans
        (List.Perm.swap _ _ _)

/-! ## Distinct inputs within the capacity -/

theorem toggleAll_one (a : Int) (ha : a ≠ -1) : toggleAll [a] = ⟨a, -1, -1, -1⟩ := by
  have ha1 : ¬ (-1 : Int) = a := fun e => ha e.symm
  simp [toggleAll, toggleFrom, toggle, contains_eq, put_eq, empty, ha1]

theorem toggleAll_two (a b : Int) (ha : a ≠ -1) (hb : b ≠ -1) (hab : a ≠ b) :
    toggleAll [a, b] = ⟨a, b, -1, -1⟩ := by
  have ha1 : ¬ (-1 : Int) = a := fun e => ha e.symm
  have hb1 : ¬ (-1 : Int) = b := fun e => hb e.symm
  simp [toggleAll, toggleFrom, toggle, contains_eq, put_eq, empty, ha, hab, ha1, hb1]

theorem toggleAll_three (a b c : Int) (ha : a ≠ -1) (hb : b ≠ -1) (hc : c ≠ -1)
    (hab : a ≠ b) (hac : a ≠ c) (hbc : b ≠ c) : toggleAll [a, b, c] = ⟨a, b, c, -1⟩ := by
  have ha1 : ¬ (-1 : Int) = a := fun e => ha e.symm
  have hb1 : ¬ (-1 : Int) = b := fun e => hb e.symm
  have hc1 : ¬ (-1 : Int) = c := fun e => hc e.symm
  simp [toggleAll, toggleFrom, toggle, contains_eq, put_eq, empty, ha, hb, hab, hac, hbc,
    ha1, hb1, hc1]

theorem toggleAll_four (a b c d : Int) (ha : a ≠ -1) (hb : b ≠ -1) (hc : c ≠ -1)
    (hd : d ≠ -1) (hab : a ≠ b) (hac : a ≠ c) (had : a ≠ d) (hbc : b ≠ c) (hbd : b ≠ d)
    (hcd : c ≠ d) : toggleAll [a, b, c, d] = ⟨a, b, c, d⟩ := by
  have ha1 : ¬ (-1 : Int) = a := fun e => ha e.symm
  have hb1 : ¬ (-1 : Int) = b := fun e => hb e.symm
  have hc1 : ¬ (-1 : Int) = c := fun e => hc e.symm
  have hd1 : ¬ (-1 : Int) = d := fun e => hd e.symm
  simp [toggleAll, toggleFrom, toggle, contains_eq, put_eq, empty, ha, hb, hc, hab, hac, had,
    hbc, hbd, hcd, ha1, hb1, hc1, hd1]

/-! ## The scans, one at a time -/

/-- C7: `contains arr elem` is the least index whose slot equals `elem` whenever
some slot does, and is `-1` exactly when no slot equals `elem`. The scan only reads
the buffer: it is a function of the buffer that yields an index and no new buffer. -/
theorem contains_least_index (arr : Arr) (elem : Int) :
    (∀ i, IsFirst arr elem i → contains arr elem = (i : Int)) ∧
    ((∃ i, i < 4 ∧ arr.get i = elem) →
      ∃ i, IsFirst arr elem i ∧ contains arr elem = (i : Int)) ∧
    (contains arr elem = -1 ↔ ¬ ∃ i, i < 4 ∧ arr.get i = elem) := by
  refine ⟨fun i h => contains_isFirst arr elem i h, fun h => ?_, contains_eq_neg_one_iff arr elem⟩
  obtain ⟨i, hi⟩ := exists_isFirst arr elem h
  exact ⟨i, hi, contains_isFirst arr elem i hi⟩

/-- C8: when some slot is free, `put_on_free_place arr value` writes `value` into
the lowest-indexed free slot and leaves the other three slots as they were. -/
theorem put_on_free_place_lowest_free (arr : Arr) (value : Int)
    (hfree : ∃ i, i < 4 ∧ arr.get i = -1) :
    ∃ i, IsFirst arr (-1) i ∧ (put_on_free_place arr value).get i = value ∧
      ∀ j, j < 4 → j ≠ i → (put_on_free_place arr value).get j = arr.get j := by
  obtain ⟨i, hi⟩ := exists_isFirst arr (-1) hfree
  refine ⟨i, hi, ?_, ?_⟩
  · rw [put_of_isFirst arr value i hi, get_set arr i i value hi.1]
    simp
  · intro j _ hne
    rw [put_of_isFirst arr value i hi, get_set arr i j value hi.1]
    simp [hne]

theorem put_on_free_place_lowest_free_witness :
    ∃ i, IsFirst ⟨7, -1, 8, -1⟩ (-1) i ∧ (put_on_free_place ⟨7, -1, 8, -1⟩ 5).get i = 5 ∧
      ∀ j, j < 4 → j ≠ i →
        (put_on_free_place ⟨7, -1, 8, -1⟩ 5).get j = (Arr.mk 7 (-1) 8 (-1)).get j :=
  put_on_free_place_lowest_free ⟨7, -1, 8, -1⟩ 5 ⟨1, by decide, by decide⟩

/-- C9: `delete_elem arr value` sets to `-1` the lowest-indexed slot equal to
`value`, which is the index `contains arr value` returns, and leaves every other
slot as it was; when no slot equals `value` the buffer is unchanged. -/
theorem delete_elem_clears_first (arr : Arr) (value : Int) :
    ((∃ i, i < 4 ∧ arr.get i = value) →
      ∃ i, IsFirst arr value i ∧ contains arr value = (i : Int) ∧
        (delete_elem arr value).get i = -1 ∧
        ∀ j, j < 4 → j ≠ i → (delete_elem arr value).get j = arr.get j) ∧
    ((¬ ∃ i, i < 4 ∧ arr.get i = value) → delete_elem arr value = arr) := by
  refine ⟨fun h => ?_, fun h => delete_of_absent arr value h⟩
  obtain ⟨i, hi⟩ := exists_isFirst arr value h
  refine ⟨i, hi, contains_isFirst arr value i hi, ?_, ?_⟩
  · rw [delete_of_isFirst arr value i hi, get_set arr i i (-1) hi.1]
    simp
  · intro j _ hne
    rw [delete_of_isFirst arr value i hi, get_set arr i j (-1) hi.1]
    simp [hne]

/-- C4: the three conditional swaps leave slots 0, 1, 2 in non-decreasing order,
holding a permutation of the values they held before; these three values are the
printed ones, and slot 3 is not changed. -/
theorem sort3_sorted_perm (arr : Arr) :
    (sort3 arr).get 0 ≤ (sort3 arr).get 1 ∧ (sort3 arr).get 1 ≤ (sort3 arr).get 2 ∧
    List.Perm [(sort3 arr).get 0, (sort3 arr).get 1, (sort3 arr).get 2]
      [arr.get 0, arr.get 1, arr.get 2] ∧
    printed arr = ((sort3 arr).get 0, (sort3 arr).get 1, (sort3 arr).get 2) ∧
    (sort3 arr).get 3 = arr.get 3 := by
  obtain ⟨a, b, c, d⟩ := arr
  refine ⟨?_, ?_, ?_, rfl, ?_⟩
  · simp only [sort3, condSwap, Arr.get, Arr.set]
    split_ifs <;> dsimp only at * <;> omega
  · simp only [sort3, condSwap, Arr.get, Arr.set]
    split_ifs <;> dsimp only at * <;> omega
  · simp only [sort3, condSwap, Arr.get, Arr.set]
    split_ifs <;> dsimp only at *
    all_goals first
      | exact List.Perm.refl _
      | exact List.Perm.swap _ _ _
      | exact List.Perm.cons _ (List.Perm.swap _ _ _)
      | exact (List.Perm.swap _ _ _).trans (List.Perm.cons _ (List.Perm.swap _ _ _))
      | exact (List.Perm.cons _ (List.Perm.swap _ _ _)).trans (List.Perm.swap _ _ _)
      | exact ((List.Perm.swap _ _ _).trans (List.Perm.cons _ (List.Perm.swap _ _ _))).trans
          (List.Perm.swap _ _ _)
  · simp only [sort3, condSwap, Arr.get, Arr.set]
    split_ifs <;> rfl

/-- C6: when all four slots are occupied and `v` is stored in none of them, both
`toggle arr v` and `put_on_free_place arr v` leave the buffer unchanged; toggling
1, 2, 3, 4, 5 from the initial buffer leaves the slots 1, 2, 3, 4 and prints `1 2 3`. -/
theorem overflow_drop :
    (∀ (arr : Arr) (v : Int), (∀ i, i < 4 → arr.get i ≠ -1) → (∀ i, i < 4 → arr.get i ≠ v) →
      toggle arr v = arr ∧ put_on_free_place arr v = arr) ∧
    toggleAll [1, 2, 3, 4, 5] = ⟨1, 2, 3, 4⟩ ∧
    mainOutput [1, 2, 3, 4, 5] = (1, 2, 3) ∧
    mainProgram [5, 1, 2, 3, 4, 5] = some "1 2 3" := by
  refine ⟨fun arr v hfull habs => ?_, by decide, by decide, by decide⟩
  have hf : ¬ Holds arr (-1) := fun ⟨i, hi, h⟩ => hfull i hi h
  have hv : ¬ Holds arr v := fun ⟨i, hi, h⟩ => habs i hi h
  rw [toggle_of_absent arr v hv, put_of_full arr v hf]
  exact ⟨rfl, rfl⟩

theorem overflow_drop_witness :
    toggle ⟨1, 2, 3, 4⟩ 5 = ⟨1, 2, 3, 4⟩ ∧ put_on_free_place ⟨1, 2, 3, 4⟩ 5 = ⟨1, 2, 3, 4⟩ :=
  overflow_drop.1 ⟨1, 2, 3, 4⟩ 5 (by decide) (by decide)

/-- C10: a value `v` other than `-1` that occupies a slot is not moved by toggling a
different value `w`: `contains` returns the same index for `v` after the toggle as
before it. Toggling 5, 2, 9, 5 from the initial buffer gives the slots -1, 2, 9, -1,
with 2 and 9 still at the indices 1 and 2. -/
theorem toggle_slot_stable :
    (∀ (arr : Arr) (v w : Int), v ≠ -1 → (∃ i, i < 4 ∧ arr.get i = v) → w ≠ v →
      contains (toggle arr w) v = contains arr v) ∧
    toggleAll [5, 2, 9, 5] = ⟨-1, 2, 9, -1⟩ ∧
    contains (toggleAll [5, 2, 9]) 2 = 1 ∧ contains (toggleAll [5, 2, 9, 5]) 2 = 1 ∧
    contains (toggleAll [5, 2, 9]) 9 = 2 ∧ contains (toggleAll [5, 2, 9, 5]) 9 = 2 := by
  refine ⟨fun arr v w hv _ hw => ?_, by decide, by decide, by decide, by decide, by decide⟩
  rcases toggle_cases arr w with ⟨_, _, h⟩ | ⟨_, i, hi, h⟩ | ⟨i, hi, h⟩
  · rw [h]
  · rw [h]
    exact contains_set_other arr i w v hi.1 (by rw [hi.2.1]; exact fun e => hv e.symm) hw
  · rw [h]
    exact contains_set_other arr i (-1) v hi.1 (by rw [hi.2.1]; exact hw)
      (fun e => hv e.symm)

theorem toggle_slot_stable_witness :
    contains (toggle ⟨-1, 2, 9, -1⟩ 7) 9 = contains ⟨-1, 2, 9, -1⟩ 9 :=
  toggle_slot_stable.1 ⟨-1, 2, 9, -1⟩ 9 7 (by decide) ⟨2, by decide, by decide⟩ (by decide)

/-! ## The input loop -/

/-- C1: for a sequence of integers other than `-1` in which the number of values
toggled an odd number of times never exceeds 4 at any prefix, and for `v` other than
`-1`: after the input loop, `contains` returns a position in 0..3 for `v` exactly
when `v` occurs an odd number of times in the sequence. -/
theorem contains_iff_toggled_odd (xs : List Int) (v : Int) (hs : ∀ x ∈ xs, x ≠ -1)
    (hcap : ∀ n, n ≤ xs.length → (onValues (xs.take n)).card ≤ 4) (hv : v ≠ -1) :
    (0 ≤ contains (toggleAll xs) v ∧ contains (toggleAll xs) v ≤ 3) ↔ xs.count v % 2 = 1 := by
  rw [← tracks_toggleAll xs hs hcap v hv]
  constructor
  · intro hpos
    by_contra hc
    rw [← contains_eq_neg_one_iff] at hc
    omega
  · intro hh
    rcases contains_range (toggleAll xs) v with hneg | hpos
    · exact absurd hh ((contains_eq_neg_one_iff _ v).1 hneg)
    · exact hpos

theorem contains_iff_toggled_odd_witness :
    (0 ≤ contains (toggleAll [5, 2, 9, 5, 7, 2, 8, 2]) 2 ∧
      contains (toggleAll [5, 2, 9, 5, 7, 2, 8, 2]) 2 ≤ 3) ↔
    [5, 2, 9, 5, 7, 2, 8, 2].count (2 : Int) % 2 = 1 :=
  contains_iff_toggled_odd [5, 2, 9, 5, 7, 2, 8, 2] 2 (by decide) (by decide) (by decide)

/-- C3: after toggling any sequence of integers from the initial buffer (of any
length, with or without `-1`, overflowing the capacity or not), no two occupied
slots hold the same value. -/
theorem toggleAll_unique (xs : List Int) (i j : Nat) (hi : i < 4) (hj : j < 4) (hij : i ≠ j)
    (hocc : (toggleAll xs).get i ≠ -1) : (toggleAll xs).get i ≠ (toggleAll xs).get j :=
  unique_toggleFrom xs empty unique_empty i j hi hj hij hocc

theorem toggleAll_unique_witness :
    (toggleAll [1, 2, -1, 3, 2, 4, 5, 6, 1]).get 1 ≠ (toggleAll [1, 2, -1, 3, 2, 4, 5, 6, 1]).get 3 :=
  toggleAll_unique [1, 2, -1, 3, 2, 4, 5, 6, 1] 1 3 (by decide) (by decide) (by decide) (by decide)

/-- C2: in a buffer reached by the input loop, for `v` other than `-1`: when `v` is
absent and some slot is free, `toggle` stores `v` in the slot that was the
lowest-indexed free one; when `v` is present, no slot holds `v` after `toggle`. -/
theorem toggle_inserts_or_removes (arr : Arr) (v : Int) (hr : Reachable arr) (hv : v ≠ -1) :
    (contains arr v = -1 → (∃ i, i < 4 ∧ arr.get i = -1) →
      ∃ i, IsFirst arr (-1) i ∧ (toggle arr v).get i = v) ∧
    (contains arr v ≠ -1 → contains (toggle arr v) v = -1) := by
  constructor
  · intro habs hfree
    have hnot : ¬ Holds arr v := (contains_eq_neg_one_iff arr v).1 habs
    obtain ⟨i, hi⟩ := exists_isFirst arr (-1) hfree
    refine ⟨i, hi, ?_⟩
    rw [toggle_of_absent arr v hnot, put_of_isFirst arr v i hi, get_set arr i i v hi.1]
    simp
  · intro hpres
    have hh : Holds arr v := by
      by_contra hc
      exact hpres ((contains_eq_neg_one_iff arr v).2 hc)
    obtain ⟨i, hi⟩ := exists_isFirst arr v hh
    rw [toggle_of_present arr v hh, delete_of_isFirst arr v i hi, contains_eq_neg_one_iff]
    rintro ⟨j, hj, hjv⟩
    rw [get_set arr i j (-1) hi.1] at hjv
    by_cases hji : j = i
    · rw [if_pos hji] at hjv
      exact hv hjv.symm
    · rw [if_neg hji] at hjv
      have hu := unique_of_reachable arr hr i j hi.1 hj (fun e => hji e.symm)
        (by rw [hi.2.1]; exact hv)
      exact hu (hi.2.1.trans hjv.symm)

theorem toggle_inserts_or_removes_witness :
    (contains ⟨-1, 2, 9, -1⟩ 5 = -1 → (∃ i, i < 4 ∧ (Arr.mk (-1) 2 9 (-1)).get i = -1) →
      ∃ i, IsFirst ⟨-1, 2, 9, -1⟩ (-1) i ∧ (toggle ⟨-1, 2, 9, -1⟩ 5).get i = 5) ∧
    (contains ⟨-1, 2, 9, -1⟩ 5 ≠ -1 → contains (toggle ⟨-1, 2, 9, -1⟩ 5) 5 = -1) :=
  toggle_inserts_or_removes ⟨-1, 2, 9, -1⟩ 5 ⟨[5, 2, 9, 5], by decide⟩ (by decide)

/-- C5, as stated, fails: the buffer -1, 5, -1, -1 is reached by toggling 7, 5, 7;
the value 5 is present in it, and toggling 5 twice leaves 5, -1, -1, -1, since the
second toggle writes 5 into the lowest free slot, which is slot 0 and not slot 1. -/
theorem toggle_twice_moves_value :
    toggleAll [7, 5, 7] = ⟨-1, 5, -1, -1⟩ ∧ Reachable ⟨-1, 5, -1, -1⟩ ∧
    contains ⟨-1, 5, -1, -1⟩ 5 ≠ -1 ∧
    toggle (toggle ⟨-1, 5, -1, -1⟩ 5) 5 = ⟨5, -1, -1, -1⟩ ∧
    toggle (toggle ⟨-1, 5, -1, -1⟩ 5) 5 ≠ ⟨-1, 5, -1, -1⟩ :=
  ⟨by decide, ⟨[7, 5, 7], by decide⟩, by decide, by decide, by decide⟩

/-- C5, amended: in a buffer reached by the input loop, toggling `v` twice in
immediate succession restores the buffer (all four slots) when `v` is absent and some slot is
free, and when `v` is present and no free slot has a lower index than the
lowest-indexed slot holding `v`. -/
theorem toggle_twice_restores (arr : Arr) (v : Int) (hr : Reachable arr)
    (h : (contains arr v = -1 ∧ ∃ i, i < 4 ∧ arr.get i = -1) ∨
      (∃ i, IsFirst arr v i ∧ ∀ j, j < i → arr.get j ≠ -1)) :
    toggle (toggle arr v) v = arr := by
  rcases h with ⟨habs, hfree⟩ | ⟨i, hi, hlow⟩
  · exact toggle_absent_twice arr v ((contains_eq_neg_one_iff arr v).1 habs) hfree
  · exact toggle_present_twice arr v i (unique_of_reachable arr hr) hi hlow

theorem toggle_twice_restores_witness :
    toggle (toggle ⟨3, 5, -1, 4⟩ 5) 5 = ⟨3, 5, -1, 4⟩ :=
  toggle_twice_restores ⟨3, 5, -1, 4⟩ 5 ⟨[3, 5, 1, 4, 1], by decide⟩
    (Or.inr ⟨1, by decide, by decide⟩)

/-! ## The sentinel and the output -/

/-- C11, as stated, fails for the input `-1`: in the initial buffer `contains`
returns index 0 for `-1`, and slot 0 is a free slot. -/
theorem contains_matches_free_slot :
    contains empty (-1) = 0 ∧ empty.get 0 = -1 ∧
    contains (toggleAll [5, 2, 9, 5]) (-1) = 0 ∧ (toggleAll [5, 2, 9, 5]).get 0 = -1 :=
  ⟨by decide, by decide, by decide, by decide⟩

/-- C11, amended: for every buffer and every input `v` other than `-1`, when
`contains arr v` returns an index `i ≥ 0`, slot `i` is an occupied slot: it holds
`v`, which is not `-1`. -/
theorem contains_index_occupied (arr : Arr) (v : Int) (hv : v ≠ -1)
    (hfound : 0 ≤ contains arr v) :
    ∃ i : Nat, contains arr v = (i : Int) ∧ i < 4 ∧ arr.get i = v ∧ arr.get i ≠ -1 := by
  have hh : Holds arr v := by
    by_contra hc
    rw [← contains_eq_neg_one_iff] at hc
    omega
  obtain ⟨i, hi⟩ := exists_isFirst arr v hh
  exact ⟨i, contains_isFirst arr v i hi, hi.1, hi.2.1, by rw [hi.2.1]; exact hv⟩

theorem contains_index_occupied_witness :
    ∃ i : Nat, contains ⟨-1, 2, 9, -1⟩ 9 = (i : Int) ∧ i < 4 ∧
      (Arr.mk (-1) 2 9 (-1)).get i = 9 ∧ (Arr.mk (-1) 2 9 (-1)).get i ≠ -1 :=
  contains_index_occupied ⟨-1, 2, 9, -1⟩ 9 (by decide) (by decide)

/-- C13: after the input loop on any sequence, a value other than `-1` held by
slot 3 is none of the three printed numbers. -/
theorem slot_three_not_printed (xs : List Int) (hocc : (toggleAll xs).get 3 ≠ -1) :
    (mainOutput xs).1 ≠ (toggleAll xs).get 3 ∧ (mainOutput xs).2.1 ≠ (toggleAll xs).get 3 ∧
    (mainOutput xs).2.2 ≠ (toggleAll xs).get 3 := by
  have hu : Unique (toggleAll xs) := unique_toggleFrom xs empty unique_empty
  have h0 : (toggleAll xs).a3 ≠ (toggleAll xs).a0 :=
    hu 3 0 (by omega) (by omega) (by omega) hocc
  have h1 : (toggleAll xs).a3 ≠ (toggleAll xs).a1 :=
    hu 3 1 (by omega) (by omega) (by omega) hocc
  have h2 : (toggleAll xs).a3 ≠ (toggleAll xs).a2 :=
    hu 3 2 (by omega) (by omega) (by omega) hocc
  have hmem := sort3_fields_mem (toggleAll xs) (toggleAll xs).a3
  have hnot : ¬ ((toggleAll xs).a3 = (sort3 (toggleAll xs)).a0 ∨
      (toggleAll xs).a3 = (sort3 (toggleAll xs)).a1 ∨
      (toggleAll xs).a3 = (sort3 (toggleAll xs)).a2) := by
    rw [hmem]
    tauto
  refine ⟨fun e => hnot (Or.inl e.symm), fun e => hnot (Or.inr (Or.inl e.symm)),
    fun e => hnot (Or.inr (Or.inr e.symm))⟩

theorem slot_three_not_printed_witness :
    (mainOutput [4, 3, 2, 1]).1 ≠ (toggleAll [4, 3, 2, 1]).get 3 ∧
    (mainOutput [4, 3, 2, 1]).2.1 ≠ (toggleAll [4, 3, 2, 1]).get 3 ∧
    (mainOutput [4, 3, 2, 1]).2.2 ≠ (toggleAll [4, 3, 2, 1]).get 3 :=
  slot_three_not_printed [4, 3, 2, 1] (by decide)

/-- C15: toggling the value `-1` leaves all four slots of any buffer unchanged,
whether or not the buffer has a free slot, so `-1` is never stored as a member. -/
theorem toggle_sentinel_unchanged (arr : Arr) :
    toggle arr (-1) = arr ∧ ∀ xs : List Int, (∀ x ∈ xs, x = -1) → toggleFrom arr xs = arr := by
  have hone : ∀ a : Arr, toggle a (-1) = a := by
    intro a
    rcases toggle_cases a (-1) with ⟨_, _, h⟩ | ⟨habs, i, hi, _⟩ | ⟨i, hi, h⟩
    · exact h
    · exact absurd ⟨i, hi.1, hi.2.1⟩ habs
    · rw [h]
      have := set_get_self a i hi.1
      rwa [hi.2.1] at this
  refine ⟨hone arr, fun xs => ?_⟩
  induction xs with
  | nil => exact fun _ => rfl
  | cons x xs ih =>
    intro hall
    have hx : x = -1 := hall x (by simp)
    have hrest : ∀ y ∈ xs, y = -1 := fun y hy => hall y (List.mem_cons_of_mem _ hy)
    show toggleFrom (toggle arr x) xs = arr
    rw [hx, hone arr]
    exact ih hrest

/-- C12: toggling at most four pairwise-distinct integers, none of them `-1`, from
the initial buffer leaves slot `i` holding the `i`-th input for every `i` below their
number and the later slots free; for three inputs the printed numbers are the inputs
in ascending order. The inputs 5 2 9 give the slots 5, 2, 9, -1 and the output
`2 5 9`. -/
theorem distinct_inputs_fill_in_order :
    (∀ xs : List Int, xs.length ≤ 4 → xs.Nodup → (∀ x ∈ xs, x ≠ -1) →
      (∀ i, i < xs.length → xs[i]? = some ((toggleAll xs).get i)) ∧
      (∀ i, xs.length ≤ i → i < 4 → (toggleAll xs).get i = -1) ∧
      (xs.length = 3 →
        (mainOutput xs).1 ≤ (mainOutput xs).2.1 ∧ (mainOutput xs).2.1 ≤ (mainOutput xs).2.2 ∧
        List.Perm [(mainOutput xs).1, (mainOutput xs).2.1, (mainOutput xs).2.2] xs)) ∧
    toggleAll [5, 2, 9] = ⟨5, 2, 9, -1⟩ ∧ mainOutput [5, 2, 9] = (2, 5, 9) ∧
    mainProgram [3, 5, 2, 9] = some "2 5 9" := by
  refine ⟨fun xs hlen hnd hs => ?_, by decide, by decide, by decide⟩
  rcases xs with _ | ⟨a, _ | ⟨b, _ | ⟨c, _ | ⟨d, _ | ⟨e, t⟩⟩⟩⟩⟩
  · refine ⟨fun i hi => absurd hi (by simp), fun i _ hi => ?_, fun h => absurd h (by simp)⟩
    interval_cases i <;> rfl
  · have ha : a ≠ -1 := hs a (by simp)
    rw [toggleAll_one a ha]
    refine ⟨fun i hi => ?_, fun i hlo hi => ?_, fun h => absurd h (by simp)⟩
    · simp only [List.length_cons, List.length_nil] at hi
      interval_cases i
      rfl
    · simp only [List.length_cons, List.length_nil] at hlo
      interval_cases i <;> rfl
  · have ha : a ≠ -1 := hs a (by simp)
    have hb : b ≠ -1 := hs b (by simp)
    simp only [List.nodup_cons, List.mem_cons, List.mem_singleton, List.not_mem_nil,
      not_or, not_false_eq_true, List.nodup_nil, and_true] at hnd
    rw [toggleAll_two a b ha hb hnd]
    refine ⟨fun i hi => ?_, fun i hlo hi => ?_, fun h => absurd h (by simp)⟩
    · simp only [List.length_cons, List.length_nil] at hi
      interval_cases i <;> rfl
    · simp only [List.length_cons, List.length_nil] at hlo
      interval_cases i <;> rfl
  · have ha : a ≠ -1 := hs a (by simp)
    have hb : b ≠ -1 := hs b (by simp)
    have hc : c ≠ -1 := hs c (by simp)
    simp only [List.nodup_cons, List.mem_cons, List.mem_singleton, List.not_mem_nil,
      not_or, not_false_eq_true, List.nodup_nil, and_true] at hnd
    have hall := toggleAll_three a b c ha hb hc hnd.1.1 hnd.1.2 hnd.2
    refine ⟨fun i hi => ?_, fun i hlo hi => ?_, fun _ => ?_⟩
    · rw [hall]
      simp only [List.length_cons, List.length_nil] at hi
      interval_cases i <;> rfl
    · rw [hall]
      simp only [List.length_cons, List.length_nil] at hlo
      interval_cases i
      rfl
    · simp only [mainOutput, printed]
      have hs3 := sort3_fields_sorted (toggleAll [a, b, c])
      have hp3 := sort3_fields_perm (toggleAll [a, b, c])
      refine ⟨hs3.1, hs3.2, ?_⟩
      rw [hall] at hp3 ⊢
      exact hp3
  · have ha : a ≠ -1 := hs a (by simp)
    have hb : b ≠ -1 := hs b (by simp)
    have hc : c ≠ -1 := hs c (by simp)
    have hd : d ≠ -1 := hs d (by simp)
    simp only [List.nodup_cons, List.mem_cons, List.mem_singleton, List.not_mem_nil,
      not_or, not_false_eq_true, List.nodup_nil, and_true] at hnd
    rw [toggleAll_four a b c d ha hb hc hd hnd.1.1 hnd.1.2.1 hnd.1.2.2 hnd.2.1.1 hnd.2.1.2
      hnd.2.2]
    refine ⟨fun i hi => ?_, fun i hlo hi => ?_, fun h => absurd h (by simp)⟩
    · simp only [List.length_cons, List.length_nil] at hi
      interval_cases i <;> rfl
    · simp only [List.length_cons, List.length_nil] at hlo
      omega
  · simp only [List.length_cons] at hlen
    omega

theorem distinct_inputs_fill_in_order_witness :
    (∀ i, i < [5, 2, 9].length → [5, 2, 9][i]? = some ((toggleAll [5, 2, 9]).get i)) ∧
    (∀ i, [5, 2, 9].length ≤ i → i < 4 → (toggleAll [5, 2, 9]).get i = -1) ∧
    ([5, 2, 9].length = 3 →
      (mainOutput [5, 2, 9]).1 ≤ (mainOutput [5, 2, 9]).2.1 ∧
      (mainOutput [5, 2, 9]).2.1 ≤ (mainOutput [5, 2, 9]).2.2 ∧
      List.Perm [(mainOutput [5, 2, 9]).1, (mainOutput [5, 2, 9]).2.1,
        (mainOutput [5, 2, 9]).2.2] [5, 2, 9]) :=
  distinct_inputs_fill_in_order.1 [5, 2, 9] (by decide) (by decide) (by decide)

/-- C14, as stated, fails: toggling 5, 2, 9, 4, 5 leaves the slots -1, 2, 9, 4, so
three values are stored and the three lowest-indexed occupied slots hold 2, 9, 4; the
printed numbers are -1, 2, 9, the sorted contents of slots 0, 1, 2, which are not a
rearrangement of 2, 9, 4. -/
theorem printed_not_lowest_occupied :
    toggleAll [5, 2, 9, 4, 5] = ⟨-1, 2, 9, 4⟩ ∧
    3 ≤ (occupied (toggleAll [5, 2, 9, 4, 5])).length ∧
    (occupied (toggleAll [5, 2, 9, 4, 5])).take 3 = [2, 9, 4] ∧
    mainOutput [5, 2, 9, 4, 5] = (-1, 2, 9) ∧
    ¬ List.Perm [(mainOutput [5, 2, 9, 4, 5]).1, (mainOutput [5, 2, 9, 4, 5]).2.1,
        (mainOutput [5, 2, 9, 4, 5]).2.2] ((occupied (toggleAll [5, 2, 9, 4, 5])).take 3) :=
  ⟨by decide, by decide, by decide, by decide, by decide⟩

/-- C14, amended: after the input loop on any sequence that leaves slots 0, 1 and 2
all occupied, the three printed numbers are the values of the three lowest-indexed
occupied slots, in ascending order. -/
theorem printed_lowest_occupied (xs : List Int) (h0 : (toggleAll xs).get 0 ≠ -1)
    (h1 : (toggleAll xs).get 1 ≠ -1) (h2 : (toggleAll xs).get 2 ≠ -1) :
    (mainOutput xs).1 ≤ (mainOutput xs).2.1 ∧ (mainOutput xs).2.1 ≤ (mainOutput xs).2.2 ∧
    List.Perm [(mainOutput xs).1, (mainOutput xs).2.1, (mainOutput xs).2.2]
      ((occupied (toggleAll xs)).take 3) := by
  have hs3 := sort3_fields_sorted (toggleAll xs)
  have hp3 := sort3_fields_perm (toggleAll xs)
  have hocc : (occupied (toggleAll xs)).take 3 =
      [(toggleAll xs).a0, (toggleAll xs).a1, (toggleAll xs).a2] := by
    generalize toggleAll xs = arr at h0 h1 h2
    obtain ⟨a, b, c, d⟩ := arr
    simp only [Arr.get] at h0 h1 h2
    by_cases hd : d = -1 <;> simp [occupied, Arr.get, List.filter, h0, h1, h2, hd]
  rw [hocc]
  exact ⟨hs3.1, hs3.2, hp3⟩

theorem printed_lowest_occupied_witness :
    (mainOutput [4, 3, 2, 1]).1 ≤ (mainOutput [4, 3, 2, 1]).2.1 ∧
    (mainOutput [4, 3, 2, 1]).2.1 ≤ (mainOutput [4, 3, 2, 1]).2.2 ∧
    List.Perm [(mainOutput [4, 3, 2, 1]).1, (mainOutput [4, 3, 2, 1]).2.1,
        (mainOutput [4, 3, 2, 1]).2.2] ((occupied (toggleAll [4, 3, 2, 1])).take 3) :=
  printed_lowest_occupied [4, 3, 2, 1] (by decide) (by decide) (by decide)

/-- C16: the printed output is not determined by the final set of stored values:
the inputs 1 2 3 4 and 4 3 2 1 are permutations of each other, never have more than
four values on, and leave the same set of values stored, yet print 1 2 3 and 2 3 4;
so no function of the stored set gives the output. -/
theorem output_not_function_of_stored_set :
    (∃ xs ys : List Int, List.Perm xs ys ∧
      (∀ n, n ≤ xs.length → (onValues (xs.take n)).card ≤ 4) ∧
      (∀ n, n ≤ ys.length → (onValues (ys.take n)).card ≤ 4) ∧
      storedValues (toggleAll xs) = storedValues (toggleAll ys) ∧
      mainOutput xs ≠ mainOutput ys) ∧
    mainOutput [1, 2, 3, 4] = (1, 2, 3) ∧ mainOutput [4, 3, 2, 1] = (2, 3, 4) ∧
    ¬ ∃ f : Finset Int → Int × Int × Int,
        ∀ xs : List Int, (∀ n, n ≤ xs.length → (onValues (xs.take n)).card ≤ 4) →
          mainOutput xs = f (storedValues (toggleAll xs)) := by
  have hst : storedValues (toggleAll [1, 2, 3, 4]) = storedValues (toggleAll [4, 3, 2, 1]) := by
    decide
  have hx : ∀ n, n ≤ [1, 2, 3, (4 : Int)].length → (onValues ([1, 2, 3, 4].take n)).card ≤ 4 := by
    decide
  have hy : ∀ n, n ≤ [4, 3, 2, (1 : Int)].length → (onValues ([4, 3, 2, 1].take n)).card ≤ 4 := by
    decide
  have hne : mainOutput [1, 2, 3, 4] ≠ mainOutput [4, 3, 2, 1] := by decide
  refine ⟨⟨[1, 2, 3, 4], [4, 3, 2, 1], by decide, hx, hy, hst, hne⟩, by decide, by decide, ?_⟩
  rintro ⟨f, hf⟩
  apply hne
  rw [hf [1, 2, 3, 4] hx, hf [4, 3, 2, 1] hy, hst]

end Azatik
